import Mathlib

/-
Shallow embedding of the production-system inference engine
(repository: expert-system-design, Go).

The repository contains two near-verbatim copies of the engine:
  * `Interpreter` (part_001): forward chaining accumulates the used-rules
    trail across rounds; the backward helper `_isDerivable` tests
    `in(trueFacts, conditional) && e._isDerivable(...)`, membership first.
  * `Engine` (part_000): forward chaining re-creates its `usedRules` buffer
    inside the round loop (so only the final, empty round is returned); the
    backward helper tests `e._isDerivable(...) && in(trueFacts, conditional)`,
    recursion first.

Go facts are compared by pointer (`*Fact` identity).  All fact handles used
during inference are obtained from the engine map `Facts : map[string]*Fact`,
whose keys are unique, so pointer identity coincides with structural equality
of the (name, semanticValue) record; the embedding therefore uses structural
equality on `Fact`.

Go slices are passed by value: a callee that `append`s to a slice parameter
never changes the length of the slice seen by the caller.  Where the source
relies on that (the backward-chaining trail), the embedding mirrors it by
keeping the parameter but returning only what the Go function returns.

Potentially non-terminating loops and recursions are embedded with an
explicit fuel parameter; `none` means the computation did not finish within
the given fuel.
-/

set_option linter.unusedVariables false

namespace ProductionSystem

/-- Go `Fact`: a named proposition with an informational semantic value. -/
structure Fact where
  name : String
  semanticValue : String
deriving DecidableEq

/-- Go `Rule`: named implication from `conditionals` to one `derivation`. -/
structure Rule where
  name : String
  conditionals : List Fact
  derivation : Fact
deriving DecidableEq

/-- Go `Interpreter` (part_001): the knowledge base.  The map
`Facts : map[string]*Fact` is represented by the list of its values (each
`Fact` carries its key as `name`; the builder rejects duplicate names),
lookup is by name below.  `Engine` of part_000 has the same layout. -/
structure Interpreter where
  facts : List Fact
  rules : List Rule

/-- Go `Engine` (part_000) has exactly the fields of `Interpreter`. -/
abbrev Engine := Interpreter

/-- Go `in(facts, fact)`: linear scan for the fact among the slice entries. -/
def inFacts (facts : List Fact) (fact : Fact) : Bool :=
  facts.any (fun f => f = fact)

/-- Go map lookup `e.Facts[name]`; names are unique, so the first (and only)
fact whose name matches is the map entry. -/
def lookupFact (e : Interpreter) (name : String) : Option Fact :=
  e.facts.find? (fun f => f.name = name)

/-- Error text of `_convertNames` in part_001:
`fmt.Sprintf("Unknown fact: %+v", name)`. -/
def unknownFactMsg (s : String) : String := "Unknown fact: " ++ s

/- ---------------------------------------------------------------------
Forward chaining (shared round structure of both variants)
--------------------------------------------------------------------- -/

/-- The body of the per-rule loop of `forward`: for a true fact equal to the
derivation the `derived` flag is cleared; otherwise `matches` is increased
by the number of conditionals equal to that true fact. -/
def scanStep (rule : Rule) (acc : Nat × Bool) (trFact : Fact) : Nat × Bool :=
  if rule.derivation = trFact then (acc.1, false)
  else (acc.1 + rule.conditionals.countP (fun c => c = trFact), acc.2)

/-- The per-rule loop of `forward`: one pass over `trueFacts` accumulating
`(matches, derived)` from `(0, true)`. -/
def scanRule (rule : Rule) (trueFacts : List Fact) : Nat × Bool :=
  trueFacts.foldl (scanStep rule) (0, true)

/-- Go firing test of `forward`: `derived && matches == len(rule.Conditionals)`. -/
def ruleFires (trueFacts : List Fact) (rule : Rule) : Bool :=
  let s := scanRule rule trueFacts
  s.2 && (s.1 = rule.conditionals.length)

/-- One round of `forward`: every rule is tested against the working set as
it stood at the start of the round; firing rules contribute their derivation
to the round batch and themselves to the fired-rules list, in declaration
order. -/
def forwardRound (rules : List Rule) (trueFacts : List Fact) :
    List Fact × List Rule :=
  rules.foldl
    (fun acc rule =>
      if ruleFires trueFacts rule then (acc.1 ++ [rule.derivation], acc.2 ++ [rule])
      else acc)
    ([], [])

/-- The saturation loop of `Interpreter.forward` (part_001): `usedRules` is
declared before the loop and accumulates the fired rules of every round.
The round batch is appended to the working set only after all rules were
tested; when a round produces no new fact the loop returns the query test
and the accumulated trail. -/
def Interpreter.forwardLoop (rules : List Rule) (query : Fact) :
    Nat → List Fact → List Rule → Option (Bool × List Rule)
  | 0, _, _ => none
  | fuel + 1, trueFacts, usedRules =>
    let round := forwardRound rules trueFacts
    let trueFacts' := trueFacts ++ round.1
    let usedRules' := usedRules ++ round.2
    if round.1.isEmpty then some (inFacts trueFacts' query, usedRules')
    else Interpreter.forwardLoop rules query fuel trueFacts' usedRules'

/-- Go `Interpreter.forward` (part_001). -/
def Interpreter.forward (e : Interpreter) (fuel : Nat) (trueFacts : List Fact)
    (query : Fact) : Option (Bool × List Rule) :=
  Interpreter.forwardLoop e.rules query fuel trueFacts []

/-- The saturation loop of `Engine.forward` (part_000): identical round
structure, but `usedRules := make([]*Rule, 0)` stands INSIDE the round loop,
so the function returns only the fired rules of the final round - and the
final round fires none. -/
def Engine.forwardLoop (rules : List Rule) (query : Fact) :
    Nat → List Fact → Option (Bool × List Rule)
  | 0, _ => none
  | fuel + 1, trueFacts =>
    let round := forwardRound rules trueFacts
    let trueFacts' := trueFacts ++ round.1
    if round.1.isEmpty then some (inFacts trueFacts' query, round.2)
    else Engine.forwardLoop rules query fuel trueFacts'

/-- Go `Engine.forward` (part_000). -/
def Engine.forward (e : Engine) (fuel : Nat) (trueFacts : List Fact)
    (query : Fact) : Option (Bool × List Rule) :=
  Engine.forwardLoop e.rules query fuel trueFacts

/- ---------------------------------------------------------------------
Backward chaining
--------------------------------------------------------------------- -/

/-- The conditional-counting loop of `_isDerivable`: runs `condSat` on every
conditional (in order) and counts the satisfied ones; a diverging check
(`none`) makes the whole count diverge, exactly like the Go loop that never
reaches the later conditionals. -/
def condsCount (condSat : Fact → Option Bool) : List Fact → Option Nat
  | [] => some 0
  | c :: cs =>
    match condSat c with
    | none => none
    | some b =>
      match condsCount condSat cs with
      | none => none
      | some n => some (if b then n + 1 else n)

/-- The rule loop of `_isDerivable`: rules are scanned in declaration order;
a rule whose derivation is the goal succeeds when all of its conditionals
are satisfied, and the first success wins.  In the Go source the success
branch appends to the local copies of `usedRules` and `trueFacts` before
returning; both slices were passed by value, so those appends are invisible
to the caller and the embedding returns just the boolean. -/
def tryRules (condsSat : List Fact → Option Nat) (fact : Fact) :
    List Rule → Option Bool
  | [] => some false
  | rule :: rest =>
    if rule.derivation = fact then
      match condsSat rule.conditionals with
      | none => none
      | some n =>
        if n = rule.conditionals.length then some true
        else tryRules condsSat fact rest
    else tryRules condsSat fact rest

/-- Go `Interpreter._isDerivable` (part_001).  The conditional test is
`in(trueFacts, conditional) && e._isDerivable(trueFacts, conditional, usedRules)`:
the membership test comes first and Go `&&` short-circuits, so the recursive
call happens only for conditionals already in the working set. -/
def Interpreter.isDerivable (rules : List Rule) :
    Nat → List Fact → Fact → List Rule → Option Bool
  | 0, _, _, _ => none
  | fuel + 1, trueFacts, fact, usedRules =>
    if inFacts trueFacts fact then some true
    else
      tryRules
        (fun conds => condsCount
          (fun c =>
            if inFacts trueFacts c then
              Interpreter.isDerivable rules fuel trueFacts c usedRules
            else some false)
          conds)
        fact rules

/-- Go `Engine._isDerivable` (part_000).  The conditional test is
`e._isDerivable(trueFacts, conditional, usedRules) && in(trueFacts, conditional)`:
the recursion is entered FIRST, also for conditionals not in the working set. -/
def Engine.isDerivable (rules : List Rule) :
    Nat → List Fact → Fact → List Rule → Option Bool
  | 0, _, _, _ => none
  | fuel + 1, trueFacts, fact, usedRules =>
    if inFacts trueFacts fact then some true
    else
      tryRules
        (fun conds => condsCount
          (fun c =>
            match Engine.isDerivable rules fuel trueFacts c usedRules with
            | none => none
            | some b => some (b && inFacts trueFacts c))
          conds)
        fact rules

/-- Go `Interpreter.backward` (part_001): creates the empty `usedRules`
slice, passes it (by value) to `_isDerivable`, and returns the boolean with
that same - still empty - slice. -/
def Interpreter.backward (e : Interpreter) (fuel : Nat) (trueFacts : List Fact)
    (query : Fact) : Option (Bool × List Rule) :=
  (Interpreter.isDerivable e.rules fuel trueFacts query []).map (fun b => (b, []))

/- ---------------------------------------------------------------------
Name resolution and the exported calls
--------------------------------------------------------------------- -/

/-- The true-fact loop of `_convertNames`: resolves names left to right and
fails on the first one absent from the fact map. -/
def resolveNames (e : Interpreter) : List String → Except String (List Fact)
  | [] => .ok []
  | n :: ns =>
    match lookupFact e n with
    | some f =>
      match resolveNames e ns with
      | .ok fs => .ok (f :: fs)
      | .error msg => .error msg
    | none => .error (unknownFactMsg n)

/-- Go `Interpreter._convertNames` (part_001): resolves the true-fact names,
then the query name; any failure aborts with an UnknownFact error naming the
offending identifier. -/
def Interpreter.convertNames (e : Interpreter) (trueFactNames : List String)
    (queryName : String) : Except String (List Fact × Fact) :=
  match resolveNames e trueFactNames with
  | .error msg => .error msg
  | .ok trueFacts =>
    match lookupFact e queryName with
    | none => .error (unknownFactMsg queryName)
    | some q => .ok (trueFacts, q)

/-- Go `Interpreter.Forward` (part_001): name resolution, then the forward
loop, then the fired rules are rendered as names.  A resolution error is
returned as such, with no verdict and no trail. -/
def Interpreter.Forward (e : Interpreter) (fuel : Nat)
    (trueFactNames : List String) (queryName : String) :
    Option (Except String (Bool × List String)) :=
  match Interpreter.convertNames e trueFactNames queryName with
  | .error msg => some (.error msg)
  | .ok (trueFacts, query) =>
    (Interpreter.forward e fuel trueFacts query).map
      (fun r => .ok (r.1, r.2.map Rule.name))

/-- Go `Interpreter.Backward` (part_001): name resolution, then the backward
search, then the (always empty, see `Interpreter.backward`) used-rules slice
is rendered as names. -/
def Interpreter.Backward (e : Interpreter) (fuel : Nat)
    (trueFactNames : List String) (queryName : String) :
    Option (Except String (Bool × List String)) :=
  match Interpreter.convertNames e trueFactNames queryName with
  | .error msg => some (.error msg)
  | .ok (trueFacts, query) =>
    (Interpreter.backward e fuel trueFacts query).map
      (fun r => .ok (r.1, r.2.map Rule.name))

/-- Go `Engine.Forward` (part_000): same pipeline over the part_000 loop.
Its `_convertNames` differs from part_001 only in the error text (it formats
the whole name list), which the success path never sees. -/
def Engine.Forward (e : Engine) (fuel : Nat)
    (trueFactNames : List String) (queryName : String) :
    Option (Except String (Bool × List String)) :=
  match Interpreter.convertNames e trueFactNames queryName with
  | .error msg => some (.error msg)
  | .ok (trueFacts, query) =>
    (Engine.forward e fuel trueFacts query).map
      (fun r => .ok (r.1, r.2.map Rule.name))

/-- The first identifier of the call (true-fact names, then the query name)
that is absent from the fact map - the one `_convertNames` reports. -/
def firstUnknown (e : Interpreter) (trueFactNames : List String)
    (queryName : String) : Option String :=
  (trueFactNames ++ [queryName]).find? (fun n => (lookupFact e n).isNone)

/-- Number of entries of `facts` not yet in the working set `ws`: the
termination measure of the saturation loop. -/
def missingCount (facts ws : List Fact) : Nat :=
  facts.countP (fun f => decide (f ∉ ws))

/- ---------------------------------------------------------------------
Concrete knowledge bases used by the spec scenarios
--------------------------------------------------------------------- -/

/-- Fact f1 of the spec scenarios. -/
def f1 : Fact := ⟨"f1", ""⟩

/-- Fact f2 of the spec scenarios. -/
def f2 : Fact := ⟨"f2", ""⟩

/-- Fact f3 of the spec scenarios. -/
def f3 : Fact := ⟨"f3", ""⟩

/-- Rule R1 of the spec scenarios: [f1, f2] implies f3. -/
def exR1 : Rule := ⟨"R1", [f1, f2], f3⟩

/-- The scenario knowledge base: facts f1, f2, f3 and rule R1. -/
def exKB : Interpreter := ⟨[f1, f2, f3], [exR1]⟩

/-- Fact a of the chained scenario. -/
def fa : Fact := ⟨"a", ""⟩

/-- Fact b of the chained scenario. -/
def fb : Fact := ⟨"b", ""⟩

/-- Fact c of the chained scenario. -/
def fc : Fact := ⟨"c", ""⟩

/-- The chained knowledge base: facts a, b, c; R1: [a] implies b;
R2: [b] implies c. -/
def chainKB : Interpreter := ⟨[fa, fb, fc], [⟨"R1", [fa], fb⟩, ⟨"R2", [fb], fc⟩]⟩

/-- A cyclic knowledge base: Rab: [a] implies b, Rba: [b] implies a. -/
def cycKB : Interpreter := ⟨[fa, fb], [⟨"Rab", [fa], fb⟩, ⟨"Rba", [fb], fa⟩]⟩

/-- A one-fact knowledge base whose single rule has no conditionals. -/
def nullKB : Interpreter := ⟨[f1], [⟨"R0", [], f1⟩]⟩

/- ---------------------------------------------------------------------
Helper lemmas about the forward round
--------------------------------------------------------------------- -/

/-- The linear scan `in` decides list membership. -/
theorem inFacts_iff (ws : List Fact) (f : Fact) : inFacts ws f = true ↔ f ∈ ws := by
  simp [inFacts]

/-- The `derived` flag after the scan is the initial flag conjoined with the
absence of the derivation from the scanned facts. -/
theorem scanRule_snd_general (r : Rule) :
    ∀ (ws : List Fact) (m : Nat) (d : Bool),
      (ws.foldl (scanStep r) (m, d)).2 = (d && decide (r.derivation ∉ ws)) := by
  intro ws
  induction ws with
  | nil => intro m d; simp
  | cons t ts ih =>
    intro m d
    by_cases h : r.derivation = t
    · simp only [List.foldl_cons, scanStep, if_pos h, ih]
      simp [h]
    · simp only [List.foldl_cons, scanStep, if_neg h, ih]
      simp [List.mem_cons, h]

/-- The `derived` flag computed by `scanRule`. -/
theorem scanRule_snd (r : Rule) (ws : List Fact) :
    (scanRule r ws).2 = decide (r.derivation ∉ ws) := by
  simpa [scanRule] using scanRule_snd_general r ws 0 true

/-- When the derivation is absent from the scanned facts, the `matches`
counter is the sum, over the scanned facts, of the number of conditionals
equal to each. -/
theorem scanRule_fst_general (r : Rule) :
    ∀ (ws : List Fact) (m : Nat) (d : Bool), r.derivation ∉ ws →
      (ws.foldl (scanStep r) (m, d)).1
        = m + (ws.map (fun t => r.conditionals.countP (fun c => c = t))).sum := by
  intro ws
  induction ws with
  | nil => intro m d _; simp
  | cons t ts ih =>
    intro m d h
    have h1 : ¬ r.derivation = t := fun hc => h (by simp [hc])
    have h2 : r.derivation ∉ ts := fun hc => h (List.mem_cons_of_mem _ hc)
    simp only [List.foldl_cons, scanStep, if_neg h1, ih _ _ h2,
      List.map_cons, List.sum_cons]
    omega

/-- The `matches` counter computed by `scanRule` when the rule is not yet
derived. -/
theorem scanRule_fst (r : Rule) (ws : List Fact) (h : r.derivation ∉ ws) :
    (scanRule r ws).1
      = (ws.map (fun t => r.conditionals.countP (fun c => c = t))).sum := by
  simpa [scanRule] using scanRule_fst_general r ws 0 true h

/-- Summing a constant zero over a list gives zero. -/
theorem sum_map_zero {α : Type} (l : List α) :
    (l.map (fun _ => (0 : Nat))).sum = 0 := by
  induction l with
  | nil => rfl
  | cons a l ih => simp [ih]

/-- Summing a pointwise sum splits into two sums. -/
theorem sum_map_add {α : Type} (f g : α → Nat) (l : List α) :
    (l.map (fun x => f x + g x)).sum = (l.map f).sum + (l.map g).sum := by
  induction l with
  | nil => rfl
  | cons a l ih =>
    simp only [List.map_cons, List.sum_cons, ih]
    omega

/-- Summing an indicator over a list counts the satisfying entries. -/
theorem sum_map_ite_one {α : Type} (p : α → Bool) (l : List α) :
    (l.map (fun c => if p c then 1 else 0)).sum = l.countP p := by
  induction l with
  | nil => rfl
  | cons a l ih =>
    by_cases h : p a = true
    · simp [List.countP_cons, h, ih]
      omega
    · simp [List.countP_cons, h, ih]

/-- Double counting: summing over `ws` the occurrences of each entry in
`conds` equals summing over `conds` the occurrences of each entry in `ws`. -/
theorem countP_sum_swap {α : Type} [DecidableEq α] :
    ∀ (ws conds : List α),
      (ws.map (fun t => conds.countP (fun c => c = t))).sum
        = (conds.map (fun c => ws.countP (fun t => t = c))).sum := by
  intro ws
  induction ws with
  | nil =>
    intro conds
    simp [sum_map_zero]
  | cons t ts ih =>
    intro conds
    simp only [List.map_cons, List.sum_cons, ih]
    have hmap : conds.map (fun c => (t :: ts).countP (fun x => x = c))
        = conds.map (fun c => ts.countP (fun x => x = c)
            + if (decide (t = c)) then 1 else 0) :=
      List.map_congr_left (fun c _ => by rw [List.countP_cons])
    rw [hmap, sum_map_add, sum_map_ite_one]
    have hcongr : conds.countP (fun c => decide (t = c))
        = conds.countP (fun c => decide (c = t)) :=
      List.countP_congr (fun c _ => by simp [eq_comm])
    rw [hcongr]
    omega

/-- In a duplicate-free list every element occurs at most once, so the
occurrence count is the membership indicator. -/
theorem countP_eq_ite_of_nodup {α : Type} [DecidableEq α] (c : α) :
    ∀ (ws : List α), ws.Nodup →
      ws.countP (fun t => t = c) = if decide (c ∈ ws) then 1 else 0 := by
  intro ws
  induction ws with
  | nil => intro _; simp
  | cons t ts ih =>
    intro h
    rw [List.nodup_cons] at h
    by_cases htc : t = c
    · subst htc
      have hz : ts.countP (fun x => x = t) = 0 :=
        List.countP_eq_zero.2 (fun x hx => by
          simp only [decide_eq_true_eq]
          exact fun he => h.1 (he ▸ hx))
      simp [List.countP_cons, hz]
    · have hne : ¬ c = t := fun hc => htc hc.symm
      simp only [List.countP_cons, ih h.2, List.mem_cons]
      simp [htc, hne]

/-- The Go firing test, on duplicate-free working sets, is exactly the
spec test: the derivation is not yet true and every conditional is. -/
theorem ruleFires_iff (ws : List Fact) (r : Rule) (hws : ws.Nodup) :
    ruleFires ws r = true ↔ (r.derivation ∉ ws ∧ ∀ c ∈ r.conditionals, c ∈ ws) := by
  by_cases hd : r.derivation ∈ ws
  · simp [ruleFires, scanRule_snd, hd]
  · have h1 := scanRule_fst r ws hd
    rw [countP_sum_swap] at h1
    have hmap : r.conditionals.map (fun c => ws.countP (fun t => t = c))
        = r.conditionals.map (fun c => if decide (c ∈ ws) then 1 else 0) :=
      List.map_congr_left (fun c _ => countP_eq_ite_of_nodup c ws hws)
    rw [hmap, sum_map_ite_one] at h1
    simp only [ruleFires, Bool.and_eq_true, decide_eq_true_eq, scanRule_snd, h1]
    constructor
    · intro ⟨_, hlen⟩
      refine ⟨hd, ?_⟩
      have := List.countP_eq_length.1 hlen
      intro c hc
      simpa using this c hc
    · intro ⟨_, hall⟩
      refine ⟨hd, ?_⟩
      exact List.countP_eq_length.2 (fun c hc => by simpa using hall c hc)

/-- The accumulator form of one forward round. -/
theorem forwardRound_general (ws : List Fact) :
    ∀ (rules : List Rule) (fs : List Fact) (rs : List Rule),
      rules.foldl
        (fun acc rule =>
          if ruleFires ws rule then (acc.1 ++ [rule.derivation], acc.2 ++ [rule])
          else acc)
        (fs, rs)
      = (fs ++ (rules.filter (ruleFires ws)).map Rule.derivation,
         rs ++ rules.filter (ruleFires ws)) := by
  intro rules
  induction rules with
  | nil => intro fs rs; simp
  | cons r rest ih =>
    intro fs rs
    by_cases h : ruleFires ws r = true
    · simp [List.foldl_cons, h, ih, List.filter_cons]
    · simp [List.foldl_cons, h, ih, List.filter_cons]

/-- One forward round produces exactly the rules firable against the
start-of-round working set, in declaration order, and their derivations. -/
theorem forwardRound_eq (rules : List Rule) (ws : List Fact) :
    forwardRound rules ws
      = ((rules.filter (ruleFires ws)).map Rule.derivation,
         rules.filter (ruleFires ws)) := by
  simpa [forwardRound] using forwardRound_general ws rules [] []

/- ---------------------------------------------------------------------
Claim theorems: closed evaluations first
--------------------------------------------------------------------- -/

/-- C10: the antecedent check counts occurrences instead of testing set
membership, so a duplicated true fact satisfies a two-antecedent rule.  With
rule R1: [f1, f2] -> f3, the call forward(["f1", "f1"], "f3") returns
(true, ["R1"]) although forward(["f1"], "f3") - the same set of distinct
facts - returns (false, []). -/
theorem c10_duplicate_breaks_set_semantics :
    Interpreter.Forward exKB 3 ["f1", "f1"] "f3" = some (.ok (true, ["R1"])) ∧
    Interpreter.Forward exKB 2 ["f1"] "f3" = some (.ok (false, [])) :=
  ⟨rfl, rfl⟩

/-- C4: at the failing input backward(["f1", "f2"], "f3") the code returns
verdict true but an EMPTY trail - the rule appended deep in `_isDerivable`
is appended to a by-value slice parameter and never reaches the caller, so
the spec scenario (true, ["R1"]) is not what the code produces. -/
theorem c4_backward_trail_lost :
    Interpreter.Backward exKB 2 ["f1", "f2"] "f3" = some (.ok (true, [])) :=
  rfl

/-- C2: on the chained knowledge base the Interpreter variant (part_001)
returns (true, ["R1", "R2"]) as the claim states, while the Engine variant
(part_000), whose trail buffer is re-created every round, returns the same
verdict with an empty trail. -/
theorem c2_trail_accumulation :
    Interpreter.Forward chainKB 3 ["a"] "c" = some (.ok (true, ["R1", "R2"])) ∧
    Engine.Forward chainKB 3 ["a"] "c" = some (.ok (true, [])) :=
  ⟨rfl, rfl⟩

/-- C8 counterexample: with the query among the supplied true facts the
forward engine still saturates, so forward(["f1", "f2"], "f1") returns
verdict true with the NON-empty trail ["R1"], refuting the claimed
immediate return with an empty trail. -/
theorem c8_counter_forward_trail_nonempty :
    Interpreter.Forward exKB 3 ["f1", "f2"] "f1" = some (.ok (true, ["R1"])) ∧
    (["R1"] : List String) ≠ [] :=
  ⟨rfl, by decide⟩

/-- C5 counterexample: on a knowledge base with F = 1 facts (one fact, one
conditional-free rule) and an empty initial working set, the saturation loop
needs two rounds, so fuel F = 1 is exhausted while fuel F + 1 = 2 completes -
the loop does NOT stop within F rounds. -/
theorem c5_counter_needs_more_than_f_rounds :
    Interpreter.Forward nullKB 1 [] "f1" = none ∧
    Interpreter.Forward nullKB 2 [] "f1" = some (.ok (true, ["R0"])) :=
  ⟨rfl, rfl⟩

/-- C1: in every round, the rules that fire are exactly those (in
declaration order, via `List.filter`) whose consequent is not in the
start-of-round working set and all of whose antecedents are in that
start-of-round working set; the whole round is a function of the
start-of-round working set alone, so no rule sees the same-round output of
another rule.  Working-set entries and antecedents are assumed duplicate-free, as
in the spec. -/
theorem c1_round_semantics (rules : List Rule) (ws : List Fact) (r : Rule)
    (hws : ws.Nodup) (hconds : r.conditionals.Nodup) :
    (ruleFires ws r = true ↔ (r.derivation ∉ ws ∧ ∀ c ∈ r.conditionals, c ∈ ws)) ∧
    forwardRound rules ws
      = ((rules.filter (ruleFires ws)).map Rule.derivation,
         rules.filter (ruleFires ws)) :=
  ⟨ruleFires_iff ws r hws, forwardRound_eq rules ws⟩

/-- Witness for C1 at the scenario knowledge base: working set [f1, f2]
and rule R1. -/
theorem c1_round_semantics_witness :
    (ruleFires [f1, f2] exR1 = true ↔
      (exR1.derivation ∉ [f1, f2] ∧ ∀ c ∈ exR1.conditionals, c ∈ [f1, f2])) ∧
    forwardRound exKB.rules [f1, f2]
      = ((exKB.rules.filter (ruleFires [f1, f2])).map Rule.derivation,
         exKB.rules.filter (ruleFires [f1, f2])) :=
  c1_round_semantics exKB.rules [f1, f2] exR1 (by decide) (by decide)

/- ---------------------------------------------------------------------
Helper lemmas about backward chaining (part_001 variant)
--------------------------------------------------------------------- -/

/-- Base case of the part_001 backward helper: a fact already in the
working set is derivable with any positive fuel. -/
theorem interp_isDerivable_of_mem (rules : List Rule) (fuel : Nat)
    (ws : List Fact) (fact : Fact) (used : List Rule)
    (hmem : inFacts ws fact = true) (hfuel : 1 ≤ fuel) :
    Interpreter.isDerivable rules fuel ws fact used = some true := by
  cases fuel with
  | zero => omega
  | succ k => simp [Interpreter.isDerivable, hmem]

/-- With positive fuel, the part_001 conditional check reduces to plain
membership: a conditional in the working set recurses and immediately
succeeds, a conditional outside it short-circuits to false.  The count of
satisfied conditionals is therefore the count of conditionals in the
working set. -/
theorem interp_condsCount (rules : List Rule) (fuel : Nat) (ws : List Fact)
    (used : List Rule) (hfuel : 1 ≤ fuel) :
    ∀ conds : List Fact,
      condsCount
        (fun c =>
          if inFacts ws c then Interpreter.isDerivable rules fuel ws c used
          else some false) conds
      = some (conds.countP (fun c => inFacts ws c)) := by
  intro conds
  induction conds with
  | nil => rfl
  | cons c cs ih =>
    by_cases h : inFacts ws c = true
    · simp [condsCount, h, interp_isDerivable_of_mem rules fuel ws c used h hfuel,
        ih, List.countP_cons]
    · simp [condsCount, h, ih, List.countP_cons]

/-- When the conditional counter always returns the membership count, the
rule loop returns the first-success scan, whose truth value is the
existence of a rule for the goal with all conditionals in the working set. -/
theorem tryRules_eval (ws : List Fact) (fact : Fact)
    (condsSat : List Fact → Option Nat)
    (hcs : ∀ conds, condsSat conds = some (conds.countP (fun c => inFacts ws c))) :
    ∀ rules : List Rule,
      tryRules condsSat fact rules
        = some (rules.any (fun r => decide (r.derivation = fact)
            && r.conditionals.all (fun c => inFacts ws c))) := by
  intro rules
  induction rules with
  | nil => rfl
  | cons r rest ih =>
    by_cases hd : r.derivation = fact
    · by_cases hlen : r.conditionals.countP (fun c => inFacts ws c)
          = r.conditionals.length
      · have hall : r.conditionals.all (fun c => inFacts ws c) = true := by
          rw [List.all_eq_true]
          intro c hc
          exact List.countP_eq_length.1 hlen c hc
        simp [tryRules, hd, hcs, hlen, hall]
      · have hall : r.conditionals.all (fun c => inFacts ws c) = false := by
          rw [← Bool.not_eq_true, List.all_eq_true]
          intro hic
          exact hlen (List.countP_eq_length.2 (fun c hc => hic c hc))
        simp [tryRules, hd, hcs, hlen, ih, hall]
    · simp [tryRules, hd, ih]

/-- Evaluation of the part_001 backward helper with fuel at least 2 (one
step for the goal, one for each conditional already in the working set):
the goal is derivable iff it is in the working set or some rule derives it
from conditionals all in the working set.  Recursion alone never
establishes an antecedent. -/
theorem interp_isDerivable_eval (rules : List Rule) (fuel : Nat)
    (ws : List Fact) (fact : Fact) (used : List Rule) (hfuel : 2 ≤ fuel) :
    Interpreter.isDerivable rules fuel ws fact used
      = some (inFacts ws fact
          || rules.any (fun r => decide (r.derivation = fact)
               && r.conditionals.all (fun c => inFacts ws c))) := by
  cases fuel with
  | zero => omega
  | succ k =>
    have hk : 1 ≤ k := by omega
    by_cases h : inFacts ws fact = true
    · simp [Interpreter.isDerivable, h]
    · have hb : inFacts ws fact = false := by simpa using h
      simp only [Interpreter.isDerivable, hb, Bool.false_eq_true, if_false,
        Bool.false_or]
      exact tryRules_eval ws fact _
        (fun conds => interp_condsCount rules k ws used hk conds) rules

/-- Evaluation of `Interpreter.backward`: the verdict of the helper paired
with the never-updated empty used-rules slice. -/
theorem interp_backward_eval (e : Interpreter) (fuel : Nat) (ws : List Fact)
    (q : Fact) (hfuel : 2 ≤ fuel) :
    Interpreter.backward e fuel ws q
      = some (inFacts ws q || e.rules.any (fun r => decide (r.derivation = q)
          && r.conditionals.all (fun c => inFacts ws c)), []) := by
  simp [Interpreter.backward, interp_isDerivable_eval e.rules fuel ws q [] hfuel]

/-- C3: for every knowledge base and successfully resolved input, Backward
returns true iff the query is in the initial working set or some rule whose
derivation is the query has every conditional already in the initial
working set; and on the chained knowledge base this under-derives relative
to forward chaining (forward proves c from [a], backward does not). -/
theorem c3_backward_strict (e : Interpreter) (names : List String)
    (qn : String) (ws : List Fact) (qf : Fact)
    (hres : Interpreter.convertNames e names qn = .ok (ws, qf))
    (fuel : Nat) (hfuel : 2 ≤ fuel) :
    (∃ v : Bool,
      Interpreter.Backward e fuel names qn = some (.ok (v, [])) ∧
      (v = true ↔ qf ∈ ws ∨
        ∃ r ∈ e.rules, r.derivation = qf ∧ ∀ c ∈ r.conditionals, c ∈ ws)) ∧
    (Interpreter.Forward chainKB 3 ["a"] "c" = some (.ok (true, ["R1", "R2"])) ∧
     Interpreter.Backward chainKB 2 ["a"] "c" = some (.ok (false, []))) := by
  refine ⟨⟨inFacts ws qf || e.rules.any (fun r => decide (r.derivation = qf)
      && r.conditionals.all (fun c => inFacts ws c)), ?_, ?_⟩, rfl, rfl⟩
  · simp [Interpreter.Backward, hres, interp_backward_eval e fuel ws qf hfuel]
  · simp [inFacts_iff]

/-- Witness for C3 at the scenario knowledge base with
backward(["f1", "f2"], "f3"). -/
theorem c3_backward_strict_witness :
    ∃ v : Bool,
      Interpreter.Backward exKB 2 ["f1", "f2"] "f3" = some (.ok (v, [])) ∧
      (v = true ↔ f3 ∈ [f1, f2] ∨
        ∃ r ∈ exKB.rules, r.derivation = f3 ∧ ∀ c ∈ r.conditionals, c ∈ [f1, f2]) :=
  (c3_backward_strict exKB ["f1", "f2"] "f3" [f1, f2] f3 rfl 2 (by omega)).1

/-- C9: Backward always returns an empty used-rules name list - the rule
appended inside `_isDerivable` goes into a slice parameter passed by value
and never reaches the caller - including when the verdict is true, as on
the scenario knowledge base. -/
theorem c9_backward_empty_trail :
    (∀ (e : Interpreter) (fuel : Nat) (names : List String) (qn : String)
        (v : Bool) (tr : List String),
      Interpreter.Backward e fuel names qn = some (.ok (v, tr)) → tr = []) ∧
    Interpreter.Backward exKB 2 ["f1", "f2"] "f3" = some (.ok (true, [])) := by
  refine ⟨?_, rfl⟩
  intro e fuel names qn v tr h
  unfold Interpreter.Backward at h
  cases hc : Interpreter.convertNames e names qn with
  | error msg => rw [hc] at h; simp at h
  | ok p =>
    obtain ⟨ws, qf⟩ := p
    rw [hc] at h
    cases hd : Interpreter.isDerivable e.rules fuel ws qf [] with
    | none => simp [Interpreter.backward, hd] at h
    | some b =>
      simp [Interpreter.backward, hd] at h
      exact h.2

/-- Witness for C9: the concrete successful call of the first conjunct. -/
theorem c9_backward_empty_trail_witness :
    Interpreter.Backward exKB 2 ["f1", "f2"] "f3" = some (.ok (true, [])) ∧
    ([] : List String) = [] :=
  ⟨rfl, c9_backward_empty_trail.1 exKB 2 ["f1", "f2"] "f3" true [] rfl⟩

/- ---------------------------------------------------------------------
Non-termination of the part_000 backward helper on a cyclic rule graph
--------------------------------------------------------------------- -/

/-- On the cyclic knowledge base (Rab: [a] implies b, Rba: [b] implies a)
with an empty working set, the part_000 helper recurses on each goal
through the other, so no amount of fuel completes either goal. -/
theorem engine_cycle_diverges_aux :
    ∀ fuel : Nat,
      Engine.isDerivable [⟨"Rab", [fa], fb⟩, ⟨"Rba", [fb], fa⟩] fuel [] fa [] = none ∧
      Engine.isDerivable [⟨"Rab", [fa], fb⟩, ⟨"Rba", [fb], fa⟩] fuel [] fb [] = none := by
  intro fuel
  induction fuel with
  | zero => exact ⟨rfl, rfl⟩
  | succ k ih =>
    have hba : ¬ (fb = fa) := by decide
    have hab : ¬ (fa = fb) := by decide
    refine ⟨?_, ?_⟩
    · simp [Engine.isDerivable, tryRules, condsCount, inFacts, hba, ih.2]
    · simp [Engine.isDerivable, tryRules, condsCount, inFacts, hab, ih.1]

/-- C6: backward chaining has no cycle detection: on the cyclic knowledge
base the query a resolves successfully, yet the part_000 backward helper
`Engine._isDerivable` - which recurses on a conditional BEFORE testing its
membership - exhausts every fuel bound, i.e. the recursion does not
terminate.  (The part_001 variant tests membership first and therefore
happens to terminate on the same input.) -/
theorem c6_backward_cycle_diverges :
    Interpreter.convertNames cycKB [] "a" = .ok ([], fa) ∧
    (∀ fuel : Nat, Engine.isDerivable cycKB.rules fuel [] fa [] = none) :=
  ⟨rfl, fun fuel => (engine_cycle_diverges_aux fuel).1⟩

/- ---------------------------------------------------------------------
Name resolution lemmas
--------------------------------------------------------------------- -/

/-- If no true-fact name is unresolved, resolution succeeds. -/
theorem resolveNames_ok (e : Interpreter) :
    ∀ names : List String,
      names.find? (fun n => (lookupFact e n).isNone) = none →
      ∃ fs, resolveNames e names = .ok fs := by
  intro names
  induction names with
  | nil => intro _; exact ⟨[], rfl⟩
  | cons n ns ih =>
    intro h
    cases hl : lookupFact e n with
    | none =>
      rw [List.find?_cons_of_pos _ (by simp [hl])] at h
      simp at h
    | some f =>
      rw [List.find?_cons_of_neg _ (by simp [hl])] at h
      obtain ⟨fs, hfs⟩ := ih h
      exact ⟨f :: fs, by simp [resolveNames, hl, hfs]⟩

/-- Resolution fails with the message naming the first unresolved
true-fact name. -/
theorem resolveNames_err (e : Interpreter) :
    ∀ (names : List String) (m : String),
      names.find? (fun n => (lookupFact e n).isNone) = some m →
      resolveNames e names = .error (unknownFactMsg m) := by
  intro names
  induction names with
  | nil => intro m h; simp at h
  | cons n ns ih =>
    intro m h
    cases hl : lookupFact e n with
    | none =>
      rw [List.find?_cons_of_pos _ (by simp [hl])] at h
      have hm : n = m := by simpa using h
      subst hm
      simp [resolveNames, hl]
    | some f =>
      rw [List.find?_cons_of_neg _ (by simp [hl])] at h
      simp [resolveNames, hl, ih m h]

/-- If resolution succeeds, no true-fact name was unresolved. -/
theorem resolveNames_ok_find (e : Interpreter) :
    ∀ (names : List String) (fs : List Fact),
      resolveNames e names = .ok fs →
      names.find? (fun n => (lookupFact e n).isNone) = none := by
  intro names
  induction names with
  | nil => intro fs _; rfl
  | cons n ns ih =>
    intro fs h
    cases hl : lookupFact e n with
    | none => simp [resolveNames, hl] at h
    | some f =>
      cases hns : resolveNames e ns with
      | error msg => simp [resolveNames, hl, hns] at h
      | ok gs =>
        rw [List.find?_cons_of_neg _ (by simp [hl])]
        exact ih gs hns

/-- A successful resolution contains, for every supplied name, the fact it
maps to. -/
theorem resolveNames_mem (e : Interpreter) :
    ∀ (names : List String) (fs : List Fact),
      resolveNames e names = .ok fs →
      ∀ n ∈ names, ∀ f, lookupFact e n = some f → f ∈ fs := by
  intro names
  induction names with
  | nil => intro fs _ n hn; simp at hn
  | cons m ms ih =>
    intro fs h n hn f hf
    cases hm : lookupFact e m with
    | none => simp [resolveNames, hm] at h
    | some g =>
      cases hms : resolveNames e ms with
      | error msg => simp [resolveNames, hm, hms] at h
      | ok gs =>
        have hfs : fs = g :: gs := by
          simp [resolveNames, hm, hms] at h
          exact h.symm
        subst hfs
        rcases List.mem_cons.1 hn with h1 | h2
        · subst h1
          rw [hm] at hf
          injection hf with hfg
          simp [hfg]
        · exact List.mem_cons_of_mem _ (ih gs hms n h2 f hf)

/-- The components of a successful `_convertNames` call. -/
theorem convertNames_ok_parts (e : Interpreter) (names : List String)
    (qn : String) (ws : List Fact) (qf : Fact)
    (h : Interpreter.convertNames e names qn = .ok (ws, qf)) :
    resolveNames e names = .ok ws ∧ lookupFact e qn = some qf := by
  unfold Interpreter.convertNames at h
  cases hr : resolveNames e names with
  | error m => rw [hr] at h; simp at h
  | ok fs =>
    rw [hr] at h
    cases hq : lookupFact e qn with
    | none => rw [hq] at h; simp at h
    | some q =>
      rw [hq] at h
      simp at h
      exact ⟨by rw [h.1], by rw [h.2]⟩

/-- C7: Forward and Backward fail with an UnknownFact error iff some
supplied true-fact name or the query name is absent from the fact map; the
error names the first unresolved identifier (true-fact names in order,
then the query); the error is produced by `_convertNames` before any
inference runs and is returned alone, with no verdict and no trail; and
forward(["f1", "f2", "f9"], "f3") with f9 unregistered is such an error. -/
theorem c7_unknown_fact_iff (e : Interpreter) (names : List String)
    (qn : String) :
    ((∃ p, Interpreter.convertNames e names qn = .ok p) ↔
      firstUnknown e names qn = none) ∧
    (∀ m, firstUnknown e names qn = some m →
      Interpreter.convertNames e names qn = .error (unknownFactMsg m)) ∧
    (∀ msg, Interpreter.convertNames e names qn = .error msg →
      ∀ fuel, Interpreter.Forward e fuel names qn = some (.error msg) ∧
              Interpreter.Backward e fuel names qn = some (.error msg)) ∧
    Interpreter.Forward exKB 3 ["f1", "f2", "f9"] "f3"
      = some (.error "Unknown fact: f9") := by
  refine ⟨⟨?_, ?_⟩, ?_, ?_, rfl⟩
  · rintro ⟨⟨ws, qf⟩, hok⟩
    obtain ⟨hrn, hlq⟩ := convertNames_ok_parts e names qn ws qf hok
    unfold firstUnknown
    rw [List.find?_append, resolveNames_ok_find e names ws hrn]
    simp [hlq]
  · intro h
    unfold firstUnknown at h
    rw [List.find?_append] at h
    cases hfn : names.find? (fun n => (lookupFact e n).isNone) with
    | some m => rw [hfn] at h; simp at h
    | none =>
      rw [hfn] at h
      simp only [Option.none_or] at h
      obtain ⟨ws, hws⟩ := resolveNames_ok e names hfn
      cases hq : lookupFact e qn with
      | none => simp [hq] at h
      | some q => exact ⟨(ws, q), by simp [Interpreter.convertNames, hws, hq]⟩
  · intro m h
    unfold firstUnknown at h
    rw [List.find?_append] at h
    cases hfn : names.find? (fun n => (lookupFact e n).isNone) with
    | some m' =>
      rw [hfn] at h
      simp only [Option.or_some, Option.some.injEq] at h
      subst h
      simp [Interpreter.convertNames, resolveNames_err e names m' hfn]
    | none =>
      rw [hfn] at h
      simp only [Option.none_or] at h
      obtain ⟨ws, hws⟩ := resolveNames_ok e names hfn
      cases hq : lookupFact e qn with
      | none =>
        have hm : qn = m := by simpa [hq] using h
        subst hm
        simp [Interpreter.convertNames, hws, hq]
      | some q => simp [hq] at h
  · intro msg h fuel
    exact ⟨by simp [Interpreter.Forward, h], by simp [Interpreter.Backward, h]⟩

/-- Witness for C7: the unregistered name f9 aborts both calls with the
UnknownFact error before any inference. -/
theorem c7_unknown_fact_iff_witness :
    Interpreter.Forward exKB 1 ["f9"] "f3" = some (.error "Unknown fact: f9") ∧
    Interpreter.Backward exKB 1 ["f9"] "f3" = some (.error "Unknown fact: f9") :=
  (c7_unknown_fact_iff exKB ["f9"] "f3").2.2.1 "Unknown fact: f9" rfl 1

/- ---------------------------------------------------------------------
Base case and termination of the forward loop
--------------------------------------------------------------------- -/

/-- The forward loop only appends to the working set, so a query in the
initial working set makes every returned verdict true. -/
theorem forwardLoop_true (rules : List Rule) (q : Fact) :
    ∀ (fuel : Nat) (ws : List Fact) (used : List Rule), q ∈ ws →
      ∀ (v : Bool) (tr : List Rule),
        Interpreter.forwardLoop rules q fuel ws used = some (v, tr) → v = true := by
  intro fuel
  induction fuel with
  | zero =>
    intro ws used hq v tr h
    simp [Interpreter.forwardLoop] at h
  | succ k ih =>
    intro ws used hq v tr h
    simp only [Interpreter.forwardLoop] at h
    split at h
    · have hmem : inFacts (ws ++ (forwardRound rules ws).1) q = true :=
        (inFacts_iff _ q).2 (List.mem_append_left _ hq)
      rw [hmem] at h
      injection h with h1
      injection h1 with h2 h3
      exact h2.symm
    · exact ih _ _ (List.mem_append_left _ hq) v tr h

/-- C8 amended: for every successfully resolved input whose query name is
among the supplied true-fact names, Forward returns verdict true whenever
its loop returns (though it still saturates and may report a non-empty
trail), and Backward returns verdict true with an empty trail. -/
theorem c8_base_case (e : Interpreter) (names : List String) (qn : String)
    (ws : List Fact) (qf : Fact) (hq : qn ∈ names)
    (hres : Interpreter.convertNames e names qn = .ok (ws, qf)) :
    (∀ (fuel : Nat) (v : Bool) (tr : List String),
      Interpreter.Forward e fuel names qn = some (.ok (v, tr)) → v = true) ∧
    (∀ fuel, 1 ≤ fuel →
      Interpreter.Backward e fuel names qn = some (.ok (true, []))) := by
  obtain ⟨hrn, hlq⟩ := convertNames_ok_parts e names qn ws qf hres
  have hmem : qf ∈ ws := resolveNames_mem e names ws hrn qn hq qf hlq
  constructor
  · intro fuel v tr h
    simp only [Interpreter.Forward, hres] at h
    cases hfwd : Interpreter.forward e fuel ws qf with
    | none => rw [hfwd] at h; simp at h
    | some r =>
      rw [hfwd] at h
      simp only [Option.map_some', Option.some.injEq, Except.ok.injEq,
        Prod.mk.injEq] at h
      rw [← h.1]
      exact forwardLoop_true e.rules qf fuel ws [] hmem r.1 r.2
        (by simpa [Interpreter.forward] using hfwd)
  · intro fuel hfuel
    have hb : inFacts ws qf = true := (inFacts_iff ws qf).2 hmem
    simp [Interpreter.Backward, hres, Interpreter.backward,
      interp_isDerivable_of_mem e.rules fuel ws qf [] hb hfuel]

/-- Witness for C8 amended at forward scenario facts with the query f1
among the supplied names. -/
theorem c8_base_case_witness :
    Interpreter.Backward exKB 2 ["f1", "f2"] "f1" = some (.ok (true, [])) :=
  (c8_base_case exKB ["f1", "f2"] "f1" [f1, f2] f1 (by simp) rfl).2 2 (by omega)

/-- Strict version of countP monotonicity: a pointwise implication plus one
member where it is strict gives a strict count inequality. -/
theorem countP_lt_of_mem {α : Type} (p q : α → Bool) :
    ∀ l : List α, (∀ a ∈ l, p a = true → q a = true) →
      ∀ a ∈ l, p a = false → q a = true → l.countP p < l.countP q := by
  intro l
  induction l with
  | nil => intro _ a ha; simp at ha
  | cons b bs ih =>
    intro hpq a ha hpa hqa
    have hmono : bs.countP p ≤ bs.countP q :=
      List.countP_mono_left (fun x hx => hpq x (List.mem_cons_of_mem _ hx))
    rcases List.mem_cons.1 ha with rfl | hamem
    · simp only [List.countP_cons, hpa, hqa]
      simp only [Bool.false_eq_true, if_false, if_true]
      omega
    · have hlt := ih (fun x hx hp => hpq x (List.mem_cons_of_mem _ hx) hp)
        a hamem hpa hqa
      have hpb : p b = true → q b = true := hpq b (List.mem_cons_self b bs)
      by_cases hb : p b = true
      · simp only [List.countP_cons, hb, hpb hb, if_true]
        omega
      · have hbf : p b = false := by simpa using hb
        by_cases hqb : q b = true
        · simp only [List.countP_cons, hbf, hqb, Bool.false_eq_true, if_false,
            if_true]
          omega
        · have hqf : q b = false := by simpa using hqb
          simp only [List.countP_cons, hbf, hqf, Bool.false_eq_true, if_false]
          omega

/-- A rule that fires is not yet derived: its derivation is absent from the
start-of-round working set. -/
theorem ruleFires_derivation_not_mem (ws : List Fact) (r : Rule)
    (h : ruleFires ws r = true) : r.derivation ∉ ws := by
  simp only [ruleFires, Bool.and_eq_true] at h
  have h1 := h.1
  rw [scanRule_snd] at h1
  simpa using h1

/-- Termination of the saturation loop: with fuel exceeding the number of
knowledge-base facts missing from the working set, the loop returns.  Each
non-terminal round adds the derivation of its first fired rule, a
knowledge-base fact that was not in the working set, so the missing count
strictly decreases. -/
theorem forwardLoop_total (rules : List Rule) (q : Fact) (facts : List Fact)
    (hwf : ∀ r ∈ rules, r.derivation ∈ facts) :
    ∀ (fuel : Nat) (ws : List Fact) (used : List Rule),
      missingCount facts ws < fuel →
      (Interpreter.forwardLoop rules q fuel ws used).isSome = true := by
  intro fuel
  induction fuel with
  | zero => intro ws used h; omega
  | succ k ih =>
    intro ws used h
    simp only [Interpreter.forwardLoop]
    split
    · rfl
    · rename_i hne
      apply ih
      have hround := forwardRound_eq rules ws
      cases hf : rules.filter (ruleFires ws) with
      | nil =>
        exfalso
        apply hne
        rw [hround, hf]
        rfl
      | cons r rest =>
        have hrmem : r ∈ rules ∧ ruleFires ws r = true := by
          have : r ∈ rules.filter (ruleFires ws) := by
            rw [hf]; exact List.mem_cons_self r rest
          have hm := List.mem_filter.1 this
          exact ⟨hm.1, hm.2⟩
        have hdnot : r.derivation ∉ ws := ruleFires_derivation_not_mem ws r hrmem.2
        have hdfacts : r.derivation ∈ facts := hwf r hrmem.1
        have hdin : r.derivation ∈ ws ++ (forwardRound rules ws).1 := by
          apply List.mem_append_right
          rw [hround, hf]
          simp
        have hlt : missingCount facts (ws ++ (forwardRound rules ws).1)
            < missingCount facts ws := by
          apply countP_lt_of_mem _ _ facts ?impl r.derivation hdfacts ?strictp ?strictq
          case impl =>
            intro a _ hp
            simp only [decide_eq_true_eq] at hp ⊢
            exact fun hmem => hp (List.mem_append_left _ hmem)
          case strictp => simp [hdin]
          case strictq => simp [hdnot]
        omega

/-- C5 amended: forward chaining over a knowledge base with F facts always
terminates within F + 1 rounds (at most F of them non-terminal), provided
every rule derivation is a knowledge-base fact (the referential integrity
the builder guarantees): running the exported Forward with fuel F + 1 never
exhausts the fuel. -/
theorem c5_bounded_amended (e : Interpreter) (names : List String)
    (qn : String) (hwf : ∀ r ∈ e.rules, r.derivation ∈ e.facts) :
    (Interpreter.Forward e (e.facts.length + 1) names qn).isSome = true := by
  unfold Interpreter.Forward
  cases hc : Interpreter.convertNames e names qn with
  | error m => rfl
  | ok p =>
    obtain ⟨ws, qf⟩ := p
    have hb : missingCount e.facts ws < e.facts.length + 1 := by
      have hle : e.facts.countP (fun f => decide (f ∉ ws)) ≤ e.facts.length :=
        List.countP_le_length (fun f => decide (f ∉ ws))
      simp only [missingCount]
      omega
    have htotal := forwardLoop_total e.rules qf e.facts hwf
      (e.facts.length + 1) ws [] hb
    cases hl : Interpreter.forwardLoop e.rules qf (e.facts.length + 1) ws [] with
    | none => rw [hl] at htotal; simp at htotal
    | some r => simp [Interpreter.forward, hl]

/-- Witness for C5 amended at the scenario knowledge base (F = 3). -/
theorem c5_bounded_amended_witness :
    (Interpreter.Forward exKB (exKB.facts.length + 1) ["f1"] "f3").isSome = true :=
  c5_bounded_amended exKB ["f1"] "f3" (by decide)

end ProductionSystem
